import Mathlib

/-!
Shallow embedding of the CREATE2 deterministic-address prediction benchmark.

The embedding translates, into executable Lean definitions:
* the Keccak-256 hash (Keccak-f[1600] permutation, sponge with rate 136 and
  legacy 0x01/0x80 padding) from the repository's Metal kernel source;
* the Go `Create2` component: `isValidAddress` with its validation cache,
  `stringToHex` salt padding, and `PredictDeterministicAddress` with its
  two-stage hashing pipeline and EIP-55 checksum output;
* the Base58 encoder from the Metal kernel source.

Go strings are modelled as Lean `String`s viewed through their UTF-8 bytes
(`strBytes`), matching Go's byte-indexed string semantics.  Machine `uint64`
words are modelled as `Nat` masked to 64 bits; bytes as `Nat` below 256.
-/

set_option maxRecDepth 100000

/-! Keccak-256, translated from the repository's Metal kernel
(`keccak_f` and `keccak256_thread`). -/

/-- All-ones 64-bit mask, `2^64 - 1`. -/
def MASK64 : Nat := 18446744073709551615

/-- Left rotation of a 64-bit word, `(w << n) | (w >> (64 - n))` truncated to 64 bits. -/
def rotl64 (w n : Nat) : Nat :=
  ((w <<< n) ||| (w >>> (64 - n))) &&& MASK64

/-- Bitwise complement of a 64-bit word. -/
def compl64 (w : Nat) : Nat := MASK64 ^^^ w

/-- Round constants `RC[24]` of Keccak-f[1600], as in the source. -/
def keccakRC : List Nat :=
  [0x0000000000000001, 0x0000000000008082, 0x800000000000808a,
   0x8000000080008000, 0x000000000000808b, 0x0000000080000001,
   0x8000000080008081, 0x8000000000008009, 0x000000000000008a,
   0x0000000000000088, 0x0000000080008009, 0x000000008000000a,
   0x000000008000808b, 0x800000000000008b, 0x8000000000008089,
   0x8000000000008003, 0x8000000000008002, 0x8000000000000080,
   0x000000000000800a, 0x800000008000000a, 0x8000000080008081,
   0x8000000000008080, 0x0000000080000001, 0x8000000080008008]

/-- One round of Keccak-f[1600] (theta, rho, pi, chi, iota) on a 25-word state.
The rho/pi step unrolls the source's `(x, y)` walk starting at `(1, 0)`:
`B[y + 5*((2x+3y) % 5)] = rotl(state[x + 5y], r[t])`, with `B[0] = state[0]`. -/
def keccakRound (rc : Nat) (s : List Nat) : List Nat :=
  match s with
  | [s0, s1, s2, s3, s4, s5, s6, s7, s8, s9, s10, s11, s12,
     s13, s14, s15, s16, s17, s18, s19, s20, s21, s22, s23, s24] =>
    let c0 := s0 ^^^ s5 ^^^ s10 ^^^ s15 ^^^ s20
    let c1 := s1 ^^^ s6 ^^^ s11 ^^^ s16 ^^^ s21
    let c2 := s2 ^^^ s7 ^^^ s12 ^^^ s17 ^^^ s22
    let c3 := s3 ^^^ s8 ^^^ s13 ^^^ s18 ^^^ s23
    let c4 := s4 ^^^ s9 ^^^ s14 ^^^ s19 ^^^ s24
    let d0 := c4 ^^^ rotl64 c1 1
    let d1 := c0 ^^^ rotl64 c2 1
    let d2 := c1 ^^^ rotl64 c3 1
    let d3 := c2 ^^^ rotl64 c4 1
    let d4 := c3 ^^^ rotl64 c0 1
    let a0 := s0 ^^^ d0
    let a1 := s1 ^^^ d1
    let a2 := s2 ^^^ d2
    let a3 := s3 ^^^ d3
    let a4 := s4 ^^^ d4
    let a5 := s5 ^^^ d0
    let a6 := s6 ^^^ d1
    let a7 := s7 ^^^ d2
    let a8 := s8 ^^^ d3
    let a9 := s9 ^^^ d4
    let a10 := s10 ^^^ d0
    let a11 := s11 ^^^ d1
    let a12 := s12 ^^^ d2
    let a13 := s13 ^^^ d3
    let a14 := s14 ^^^ d4
    let a15 := s15 ^^^ d0
    let a16 := s16 ^^^ d1
    let a17 := s17 ^^^ d2
    let a18 := s18 ^^^ d3
    let a19 := s19 ^^^ d4
    let a20 := s20 ^^^ d0
    let a21 := s21 ^^^ d1
    let a22 := s22 ^^^ d2
    let a23 := s23 ^^^ d3
    let a24 := s24 ^^^ d4
    let b0 := a0
    let b10 := rotl64 a1 1
    let b7 := rotl64 a10 3
    let b11 := rotl64 a7 6
    let b17 := rotl64 a11 10
    let b18 := rotl64 a17 15
    let b3 := rotl64 a18 21
    let b5 := rotl64 a3 28
    let b16 := rotl64 a5 36
    let b8 := rotl64 a16 45
    let b21 := rotl64 a8 55
    let b24 := rotl64 a21 2
    let b4 := rotl64 a24 14
    let b15 := rotl64 a4 27
    let b23 := rotl64 a15 41
    let b19 := rotl64 a23 56
    let b13 := rotl64 a19 8
    let b12 := rotl64 a13 25
    let b2 := rotl64 a12 43
    let b20 := rotl64 a2 62
    let b14 := rotl64 a20 18
    let b22 := rotl64 a14 39
    let b9 := rotl64 a22 61
    let b6 := rotl64 a9 20
    let b1 := rotl64 a6 44
    let e0 := b0 ^^^ (compl64 b1 &&& b2)
    let e1 := b1 ^^^ (compl64 b2 &&& b3)
    let e2 := b2 ^^^ (compl64 b3 &&& b4)
    let e3 := b3 ^^^ (compl64 b4 &&& b0)
    let e4 := b4 ^^^ (compl64 b0 &&& b1)
    let e5 := b5 ^^^ (compl64 b6 &&& b7)
    let e6 := b6 ^^^ (compl64 b7 &&& b8)
    let e7 := b7 ^^^ (compl64 b8 &&& b9)
    let e8 := b8 ^^^ (compl64 b9 &&& b5)
    let e9 := b9 ^^^ (compl64 b5 &&& b6)
    let e10 := b10 ^^^ (compl64 b11 &&& b12)
    let e11 := b11 ^^^ (compl64 b12 &&& b13)
    let e12 := b12 ^^^ (compl64 b13 &&& b14)
    let e13 := b13 ^^^ (compl64 b14 &&& b10)
    let e14 := b14 ^^^ (compl64 b10 &&& b11)
    let e15 := b15 ^^^ (compl64 b16 &&& b17)
    let e16 := b16 ^^^ (compl64 b17 &&& b18)
    let e17 := b17 ^^^ (compl64 b18 &&& b19)
    let e18 := b18 ^^^ (compl64 b19 &&& b15)
    let e19 := b19 ^^^ (compl64 b15 &&& b16)
    let e20 := b20 ^^^ (compl64 b21 &&& b22)
    let e21 := b21 ^^^ (compl64 b22 &&& b23)
    let e22 := b22 ^^^ (compl64 b23 &&& b24)
    let e23 := b23 ^^^ (compl64 b24 &&& b20)
    let e24 := b24 ^^^ (compl64 b20 &&& b21)
    [e0 ^^^ rc, e1, e2, e3, e4, e5, e6, e7, e8, e9, e10, e11, e12,
     e13, e14, e15, e16, e17, e18, e19, e20, e21, e22, e23, e24]
  | _ => s

/-- Keccak-f[1600]: 24 rounds over the 25-word state. -/
def keccakF (s : List Nat) : List Nat :=
  keccakRC.foldl (fun st rc => keccakRound rc st) s

/-- Group a byte list into 64-bit words, little-endian, 8 bytes per word. -/
def bytesToWords : List Nat → List Nat
  | b0 :: b1 :: b2 :: b3 :: b4 :: b5 :: b6 :: b7 :: rest =>
    (b0 + 256 * (b1 + 256 * (b2 + 256 * (b3 + 256 * (b4 + 256 * (b5 + 256 * (b6 + 256 * b7))))))) ::
      bytesToWords rest
  | _ => []

/-- Little-endian bytes of a 64-bit word. -/
def wordToBytes (w : Nat) : List Nat :=
  [w % 256, w / 256 % 256, w / 256 ^ 2 % 256, w / 256 ^ 3 % 256,
   w / 256 ^ 4 % 256, w / 256 ^ 5 % 256, w / 256 ^ 6 % 256, w / 256 ^ 7 % 256]

/-- Little-endian byte view of a word list. -/
def wordsToBytes : List Nat → List Nat
  | [] => []
  | w :: rest => wordToBytes w ++ wordsToBytes rest

/-- Keccak-f[1600] acting on the 200-byte view of the state. -/
def keccakPermBytes (st : List Nat) : List Nat :=
  wordsToBytes (keccakF (bytesToWords st))

/-- XOR a block into the front of the state bytes (absorption step). -/
def xorInto (st block : List Nat) : List Nat :=
  List.zipWith (· ^^^ ·) st block ++ st.drop block.length

/-- XOR a single byte value into the state at index `i`. -/
def xorAt (st : List Nat) (i v : Nat) : List Nat :=
  st.set i (st.getD i 0 ^^^ v)

/-- Absorption loop of `keccak256_thread`: XOR each full 136-byte block and
permute; on a final short block, XOR its bytes in and stop (the padding and
final permutation happen afterwards).  `fuel` bounds the number of blocks. -/
def absorbLoop (fuel : Nat) (st rem : List Nat) : List Nat :=
  match fuel with
  | 0 => st
  | f + 1 =>
    if rem.length = 0 then st
    else
      let bs := min 136 rem.length
      let st' := xorInto st (rem.take bs)
      if bs = 136 then absorbLoop f (keccakPermBytes st') (rem.drop 136)
      else st'

/-- Keccak-256 of a byte list: sponge with rate 136, legacy multi-rate padding
`0x01 .. 0x80`, squeezing the first 32 state bytes. -/
def keccak256 (input : List Nat) : List Nat :=
  let st0 := List.replicate 200 0
  let st1 := absorbLoop (input.length / 136 + 1) st0 input
  let paddingOffset := input.length % 136
  let st2 := xorAt (xorAt st1 paddingOffset 0x01) 135 0x80
  (keccakPermBytes st2).take 32

/-! Byte-level view of Go strings and the hex codec helpers. -/

/-- UTF-8 encoding of a Unicode code point as a byte list. -/
def utf8EncodeNat (n : Nat) : List Nat :=
  if n < 0x80 then [n]
  else if n < 0x800 then [0xC0 + (n >>> 6), 0x80 + (n &&& 0x3F)]
  else if n < 0x10000 then
    [0xE0 + (n >>> 12), 0x80 + ((n >>> 6) &&& 0x3F), 0x80 + (n &&& 0x3F)]
  else
    [0xF0 + (n >>> 18), 0x80 + ((n >>> 12) &&& 0x3F),
     0x80 + ((n >>> 6) &&& 0x3F), 0x80 + (n &&& 0x3F)]

/-- UTF-8 bytes of a string; this is the byte sequence a Go string holds. -/
def strBytes (s : String) : List Nat :=
  s.data.flatMap (fun c => utf8EncodeNat c.toNat)

/-- String built from a list of (ASCII) code points. -/
def asciiToString (l : List Nat) : String :=
  String.mk (l.map Char.ofNat)

/-- ASCII lowercase of one byte (`strings.ToLower` on ASCII data). -/
def toLowerByte (b : Nat) : Nat :=
  if 65 ≤ b ∧ b ≤ 90 then b + 32 else b

/-- Hex digit value of an ASCII character code, as in the source's
`hex_to_value`: `(c <= '9') ? (c - '0') : ((c & 0xDF) - 'A' + 10)`. -/
def hexCharVal (c : Nat) : Nat :=
  if c ≤ 57 then c - 48 else (c &&& 0xDF) - 65 + 10

/-- Hex-decode an ASCII character-code list, two characters per byte. -/
def hexDecodeAscii : List Nat → List Nat
  | [] => []
  | [_] => []
  | c1 :: c2 :: rest => ((hexCharVal c1 <<< 4) ||| hexCharVal c2) :: hexDecodeAscii rest

/-- Lowercase hex character code of a nibble. -/
def hexDigitChar (n : Nat) : Nat :=
  if n < 10 then 48 + n else 97 + n - 10

/-- Lowercase hex encoding of a byte list as ASCII character codes. -/
def hexEncodeAscii : List Nat → List Nat
  | [] => []
  | b :: rest => hexDigitChar (b >>> 4) :: hexDigitChar (b &&& 0x0f) :: hexEncodeAscii rest

/-! The Go `Create2` component (`create2.go`). -/

/-- Minimal-proxy (EIP-1167) bytecode constant `MinProxyBytecodePrefix`. -/
def MinProxyBytecodePfx : String := "3d602d80600a3d3981f3363d3d373d3d3d363d73"

/-- Minimal-proxy (EIP-1167) bytecode constant `MinProxyBytecodeSuffix`. -/
def MinProxyBytecodeSfx : String := "5af43d82803e903d91602b57fd5bf3ff"

/-- ASCII hex digit test from the validation loop of `isValidAddress`:
`('0' <= ch <= '9') || ('a' <= ch <= 'f') || ('A' <= ch <= 'F')`. -/
def isHexByte (b : Nat) : Bool :=
  (48 ≤ b && b ≤ 57) || (97 ≤ b && b ≤ 102) || (65 ≤ b && b ≤ 70)

/-- Validation cache: the `sync.Map` is modelled as an association list in
which `Store` prepends and `Load` finds the most recent binding. -/
abbrev AddrCache := List (String × Bool)

/-- Length-and-prefix pre-check of `isValidAddress`, in positive form:
the Go code returns `false` when
`len != 42 || address[0] != '0' || (address[1] != 'x' && address[1] != 'X')`. -/
def addrPrecheck (b : List Nat) : Bool :=
  b.length == 42 && b.getD 0 0 == 48 && (b.getD 1 0 == 120 || b.getD 1 0 == 88)

/-- The Go `isValidAddress` method: pre-check, cache lookup, then the hex
loop over bytes 2..41, storing the loop's verdict in the cache. -/
def isValidAddress (c : AddrCache) (address : String) : Bool × AddrCache :=
  let b := strBytes address
  if addrPrecheck b then
    match c.lookup address with
    | some v => (v, c)
    | none =>
      let ok := (b.drop 2).all isHexByte
      (ok, (address, ok) :: c)
  else (false, c)

/-- Validity verdict on a fresh, empty cache. -/
def pureValid (s : String) : Bool := (isValidAddress [] s).fst

/-- Cache state obtained by running `isValidAddress` on a list of inputs,
starting from the empty cache (most recent call first). -/
def runCalls : List String → AddrCache
  | [] => []
  | s :: rest => (isValidAddress (runCalls rest) s).snd

/-- Core of `stringToHex`: the byte list is `make`-allocated at `size` zero
bytes, `copy` fills the front, and the result is its lowercase hex encoding
(as ASCII codes); byte lists longer than `size` yield the empty signal. -/
def stringToHexBytes (bytes : List Nat) (size : Nat) : List Nat :=
  if bytes.length > size then []
  else hexEncodeAscii ((List.range size).map (fun i => bytes.getD i 0))

/-- The Go `stringToHex(s, size)`. -/
def stringToHex (s : String) (size : Nat) : String :=
  asciiToString (stringToHexBytes (strBytes s) size)

/-- Checksum nibble of the hash at character index `i` (high nibble for even
`i`), as in the Metal kernel's checksum application. -/
def nibbleAt (hash : List Nat) (i : Nat) : Nat :=
  if i % 2 = 0 then hash.getD (i / 2) 0 >>> 4 else hash.getD (i / 2) 0 &&& 0x0f

/-- Per-character checksum casing: a character in `a`..`f` is moved to
uppercase (code minus 32) when the corresponding hash nibble is at least 8. -/
def checksumApply (hexChars hash : List Nat) : List Nat :=
  List.zipWith
    (fun i c => if 97 ≤ c ∧ c ≤ 102 ∧ 8 ≤ nibbleAt hash i then c - 32 else c)
    (List.range hexChars.length) hexChars

/-- The EIP-55 checksum step on 40 lowercase hex characters: hash the ASCII
characters with Keccak-256 and apply the per-character casing. -/
def checksumStep (hexChars : List Nat) : List Nat :=
  checksumApply hexChars (keccak256 hexChars)

/-- Checksummed address characters of 20 address bytes (no `0x`). -/
def checksumAddressChars (addrBytes : List Nat) : List Nat :=
  checksumStep (hexEncodeAscii addrBytes)

/-- The 216-character hex bytecode string built by `PredictDeterministicAddress`:
prefix, lowercased implementation, suffix, lowercased deployer, padded salt. -/
def bytecodeChars (implementation deployer salt : String) : List Nat :=
  strBytes MinProxyBytecodePfx ++ ((strBytes implementation).drop 2).map toLowerByte ++
  strBytes MinProxyBytecodeSfx ++ ((strBytes deployer).drop 2).map toLowerByte ++
  stringToHexBytes (strBytes salt) 32

/-- Successful-path output characters of `PredictDeterministicAddress`:
hash hex slice `[:110]`, first Keccak-256, append its hex, hash slice
`[110:280]`, second Keccak-256, take the last 40 hex characters, and return
`0x` plus the checksummed address. -/
def predictOkAscii (implementation deployer salt : String) : List Nat :=
  let chars := bytecodeChars implementation deployer salt
  let firstBytes := hexDecodeAscii (chars.take 110)
  let firstHash := keccak256 firstBytes
  let full := chars ++ hexEncodeAscii firstHash
  let secondBytes := hexDecodeAscii ((full.drop 110).take 170)
  let secondHash := keccak256 secondBytes
  let hashHex := hexEncodeAscii secondHash
  let addressHex := hashHex.drop (hashHex.length - 40)
  let addrBytes := hexDecodeAscii addressHex
  48 :: 120 :: checksumAddressChars addrBytes

/-- The Go `PredictDeterministicAddress`: validate implementation then
deployer (threading the cache), reject salts longer than 32 bytes, and
otherwise return the checksummed predicted address. -/
def PredictDeterministicAddress (c : AddrCache) (implementation deployer salt : String) :
    Except String String × AddrCache :=
  match isValidAddress c implementation with
  | (false, c1) => (.error ("无效的实现合约地址: " ++ implementation), c1)
  | (true, c1) =>
    match isValidAddress c1 deployer with
    | (false, c2) => (.error ("无效的部署者地址: " ++ deployer), c2)
    | (true, c2) =>
      if (strBytes salt).length > 32 then (.error "盐值长度不能超过32个字符", c2)
      else (.ok (asciiToString (predictOkAscii implementation deployer salt)), c2)

/-! Base58 encoding, translated from the Metal kernel source. -/

/-- The 58-character Bitcoin alphabet, as ASCII codes. -/
def b58Alphabet : List Nat :=
  strBytes "123456789ABCDEFGHJKLMNPQRSTUVWXYZabcdefghijkmnopqrstuvwxyz"

/-- Body of the long-division inner loop: consume one byte, updating the
running remainder and the stored quotient bytes (a quotient byte is stored
only when `quotient > 0 || new_len > 0`, suppressing leading zeros). -/
def divStepF (acc : Nat × List Nat) (b : Nat) : Nat × List Nat :=
  let value := acc.1 * 256 + b
  let quotient := value / 58
  let remainder := value % 58
  (remainder, if quotient > 0 ∨ acc.2 ≠ [] then acc.2 ++ [quotient] else acc.2)

/-- One pass of the long-division inner loop: divide the base-256 byte string
by 58, returning the remainder and the quotient bytes with leading zero bytes
suppressed. -/
def divStep (temp : List Nat) : Nat × List Nat :=
  temp.foldl divStepF (0, [])

/-- The `while (temp_len > 0)` loop of `base58_encode`, collecting remainder
digits least-significant first; `fuel` bounds the iteration count. -/
def b58Digits (fuel : Nat) (temp : List Nat) : List Nat :=
  match fuel with
  | 0 => []
  | f + 1 =>
    if temp = [] then []
    else
      let step := divStep temp
      step.1 :: b58Digits f step.2

/-- Count of leading zero bytes, as scanned by the source
(`for i < input_len && input[i] == 0`). -/
def countLeadingZeroBytes : List Nat → Nat
  | [] => 0
  | b :: t => if b = 0 then countLeadingZeroBytes t + 1 else 0

/-- The Metal kernel's `base58_encode`: digits from repeated division by 58,
one `'1'` per leading zero byte appended, and the whole buffer reversed.
The fuel `8 * length + 8` dominates the digit count of any byte string. -/
def base58_encode (input : List Nat) : List Nat :=
  let digits := b58Digits (8 * input.length + 8) input
  (digits.map (fun d => b58Alphabet.getD d 0) ++
    List.replicate (countLeadingZeroBytes input) 49).reverse

/-! Specification-side definitions, stated from the spec's words; they are
compared against the source-derived definitions above. -/

/-- Address-syntax predicate of the claim: byte length exactly 42, first byte
`'0'`, second byte `'x'` or `'X'`, and the remaining 40 bytes ASCII hex
digits of either case (the pattern over ASCII data). -/
def specValidAddress (s : String) : Prop :=
  (strBytes s).length = 42 ∧ (strBytes s).getD 0 0 = 48 ∧
    ((strBytes s).getD 1 0 = 120 ∨ (strBytes s).getD 1 0 = 88) ∧
    ∀ i, 2 ≤ i → i < 42 → isHexByte ((strBytes s).getD i 0) = true

/-- Minimal-proxy bytecode prefix as raw bytes (the kernel's `PREFIX[20]`). -/
def specProxyPrefixBytes : List Nat :=
  [0x3d, 0x60, 0x2d, 0x80, 0x60, 0x0a, 0x3d, 0x39, 0x81, 0xf3,
   0x36, 0x3d, 0x3d, 0x37, 0x3d, 0x3d, 0x3d, 0x36, 0x3d, 0x73]

/-- Minimal-proxy bytecode suffix as raw bytes (the kernel's `SUFFIX[16]`). -/
def specProxySuffixBytes : List Nat :=
  [0x5a, 0xf4, 0x3d, 0x82, 0x80, 0x3e, 0x90, 0x3d,
   0x91, 0x60, 0x2b, 0x57, 0xfd, 0x5b, 0xf3, 0xff]

/-- Candidate address bytes per the spec's two-stage derivation: build the
108-byte bytecode (prefix, implementation bytes, suffix, deployer bytes,
zero-padded salt), hash its first 55 bytes, hash bytes 55..108 concatenated
with that first hash, and take the last 20 bytes of the second hash. -/
def specCandidateBytes (implBytes deployerBytes saltBytes : List Nat) : List Nat :=
  let bytecode := specProxyPrefixBytes ++ implBytes ++ specProxySuffixBytes ++
    deployerBytes ++ (saltBytes ++ List.replicate (32 - saltBytes.length) 0)
  let firstHash := keccak256 (bytecode.take 55)
  let secondHash := keccak256 (bytecode.drop 55 ++ firstHash)
  secondHash.drop 12

/-- Reading of a predicted address string as raw bytes: drop `0x`, lowercase
every character, hex-decode. -/
def addressBytesOfOutput (s : String) : List Nat :=
  hexDecodeAscii (((s.data.map Char.toNat).drop 2).map toLowerByte)

/-- Address bytes derived from a validated address string: drop `0x`,
lowercase, hex-decode. -/
def addrStringBytes (s : String) : List Nat :=
  hexDecodeAscii (((strBytes s).drop 2).map toLowerByte)

/-- Count of leading `'1'` characters of a Base58 string (ASCII codes). -/
def countLeadingOnes : List Nat → Nat
  | [] => 0
  | c :: t => if c = 49 then countLeadingOnes t + 1 else 0

/-- Index of an ASCII code in the Base58 alphabet. -/
def b58CharIndex (c : Nat) : Nat :=
  b58Alphabet.findIdx (fun x => x == c)

/-- Shortest big-endian base-256 representation of a number (`fuel` bounds
the digit count; `natToBytesBE (v+1) v` always has enough fuel). -/
def natToBytesBE (fuel v : Nat) : List Nat :=
  match fuel with
  | 0 => []
  | f + 1 => if v = 0 then [] else natToBytesBE f (v / 256) ++ [v % 256]

/-- Value of the base-58 digits of a Base58 string after its leading ones. -/
def b58DigitsValue (s : List Nat) : Nat :=
  (s.drop (countLeadingOnes s)).foldl (fun a c => a * 58 + b58CharIndex c) 0

/-- Base58 decoding as described by the claim: leading `'1'` characters map
to leading zero bytes, and the remaining digits are read as a base-58 big
integer whose big-endian bytes follow. -/
def base58_decode (s : List Nat) : List Nat :=
  List.replicate (countLeadingOnes s) 0 ++
    natToBytesBE (b58DigitsValue s + 1) (b58DigitsValue s)

/-! Arithmetic views used by the proofs. -/

/-- Value of a big-endian base-256 byte string. -/
def baseVal (l : List Nat) : Nat :=
  l.foldl (fun a b => a * 256 + b) 0

/-- Value of a big-endian base-58 digit string. -/
def val58 (l : List Nat) : Nat :=
  l.foldl (fun a d => a * 58 + d) 0

/-- Head byte is nonzero (trivially true for the empty list). -/
def headNZ (l : List Nat) : Prop := l.headD 1 ≠ 0

/-- Consistency invariant of the validation cache: every stored entry passed
the length-and-prefix pre-check and stores the recomputed validity verdict. -/
def cacheConsistent (c : AddrCache) : Prop :=
  ∀ p ∈ c, addrPrecheck (strBytes p.1) = true ∧ p.2 = pureValid p.1

/-! Structural lemmas about the Keccak embedding. -/

theorem keccakRound_length (rc : Nat) (s : List Nat) : (keccakRound rc s).length = s.length := by
  unfold keccakRound
  split
  · simp
  · rfl

theorem keccakF_length (s : List Nat) : (keccakF s).length = s.length := by
  unfold keccakF
  generalize keccakRC = l
  induction l generalizing s with
  | nil => rfl
  | cons rc t ih => simp [List.foldl_cons, ih, keccakRound_length]

theorem bytesToWords_length (l : List Nat) : (bytesToWords l).length = l.length / 8 := by
  induction l using bytesToWords.induct with
  | case1 b0 b1 b2 b3 b4 b5 b6 b7 rest ih =>
    simp only [bytesToWords, List.length_cons, ih]
    omega
  | case2 l h =>
    rcases l with _ | ⟨a, _ | ⟨b, _ | ⟨c, _ | ⟨d, _ | ⟨e, _ | ⟨f, _ | ⟨g, _ | ⟨x, t⟩⟩⟩⟩⟩⟩⟩⟩
    · simp [bytesToWords]
    · simp [bytesToWords]
    · simp [bytesToWords]
    · simp [bytesToWords]
    · simp [bytesToWords]
    · simp [bytesToWords]
    · simp [bytesToWords]
    · simp [bytesToWords]
    · exact absurd (h a b c d e f g x t) (by simp)

theorem wordToBytes_lt (w : Nat) : ∀ b ∈ wordToBytes w, b < 256 := by
  intro b hb
  simp [wordToBytes] at hb
  rcases hb with h | h | h | h | h | h | h | h <;> omega

theorem wordToBytes_length (w : Nat) : (wordToBytes w).length = 8 := by
  simp [wordToBytes]

theorem wordsToBytes_lt (ws : List Nat) : ∀ b ∈ wordsToBytes ws, b < 256 := by
  induction ws with
  | nil => simp [wordsToBytes]
  | cons w t ih =>
    intro b hb
    simp only [wordsToBytes, List.mem_append] at hb
    rcases hb with h | h
    · exact wordToBytes_lt w b h
    · exact ih b h

theorem wordsToBytes_length (ws : List Nat) : (wordsToBytes ws).length = 8 * ws.length := by
  induction ws with
  | nil => simp [wordsToBytes]
  | cons w t ih =>
    simp [wordsToBytes, wordToBytes_length, ih]
    omega

theorem keccakPermBytes_length (st : List Nat) (h : st.length = 200) :
    (keccakPermBytes st).length = 200 := by
  simp [keccakPermBytes, wordsToBytes_length, keccakF_length, bytesToWords_length, h]

theorem keccakPermBytes_lt (st : List Nat) : ∀ b ∈ keccakPermBytes st, b < 256 :=
  wordsToBytes_lt _

theorem xorInto_length (st block : List Nat) (h : block.length ≤ st.length) :
    (xorInto st block).length = st.length := by
  simp [xorInto]
  omega

theorem xorAt_length (st : List Nat) (i v : Nat) : (xorAt st i v).length = st.length := by
  simp [xorAt]

theorem absorbLoop_length (fuel : Nat) :
    ∀ (st rem : List Nat), st.length = 200 → (absorbLoop fuel st rem).length = 200 := by
  induction fuel with
  | zero => intro st rem h; simpa [absorbLoop] using h
  | succ f ih =>
    intro st rem h
    unfold absorbLoop
    split
    · exact h
    · simp only []
      split
      · apply ih
        apply keccakPermBytes_length
        rw [xorInto_length]
        · exact h
        · rw [h, List.length_take]
          omega
      · rw [xorInto_length]
        · exact h
        · rw [h, List.length_take]
          omega

theorem keccak256_length (input : List Nat) : (keccak256 input).length = 32 := by
  unfold keccak256
  simp only [List.length_take]
  have h1 : (absorbLoop (input.length / 136 + 1) (List.replicate 200 0) input).length = 200 :=
    absorbLoop_length _ _ _ (by simp)
  rw [keccakPermBytes_length]
  · simp
  · rw [xorAt_length, xorAt_length]
    exact h1

theorem keccak256_lt (input : List Nat) : ∀ b ∈ keccak256 input, b < 256 := by
  intro b hb
  unfold keccak256 at hb
  exact keccakPermBytes_lt _ b (List.take_subset _ _ hb)

/-! Lemmas about the hex codec. -/

theorem hexCharVal_hexDigitChar : ∀ n, n < 16 → hexCharVal (hexDigitChar n) = n := by
  decide

theorem shiftRight4_lt : ∀ b, b < 256 → b >>> 4 < 16 := by
  decide

theorem and15_lt (b : Nat) : b &&& 15 < 16 :=
  Nat.lt_succ_of_le (Nat.and_le_right)

theorem byte_recompose : ∀ b, b < 256 → ((b >>> 4) <<< 4) ||| (b &&& 15) = b := by
  decide

theorem hexEncodeAscii_length (l : List Nat) : (hexEncodeAscii l).length = 2 * l.length := by
  induction l with
  | nil => rfl
  | cons b t ih => simp [hexEncodeAscii, ih]; omega

theorem hexEncodeAscii_append (a b : List Nat) :
    hexEncodeAscii (a ++ b) = hexEncodeAscii a ++ hexEncodeAscii b := by
  induction a with
  | nil => rfl
  | cons x t ih => simp [hexEncodeAscii, ih]

theorem hexDecodeAscii_append : ∀ (a b : List Nat), a.length % 2 = 0 →
    hexDecodeAscii (a ++ b) = hexDecodeAscii a ++ hexDecodeAscii b
  | [], b, _ => by simp [hexDecodeAscii]
  | [c], b, h => by simp at h
  | c1 :: c2 :: rest, b, h => by
    have h' : rest.length % 2 = 0 := by simp at h; omega
    simp [hexDecodeAscii, hexDecodeAscii_append rest b h']

theorem hexDecodeAscii_length : ∀ l : List Nat, (hexDecodeAscii l).length = l.length / 2
  | [] => by simp [hexDecodeAscii]
  | [c] => by simp [hexDecodeAscii]
  | c1 :: c2 :: rest => by
    simp [hexDecodeAscii, hexDecodeAscii_length rest]
    omega

theorem hexDecodeAscii_take : ∀ (k : Nat) (l : List Nat),
    hexDecodeAscii (l.take (2 * k)) = (hexDecodeAscii l).take k
  | 0, l => by simp [hexDecodeAscii]
  | k + 1, [] => by simp [hexDecodeAscii]
  | k + 1, [c] => by
    rw [List.take_of_length_le (by simp; omega)]
    simp [hexDecodeAscii]
  | k + 1, c1 :: c2 :: rest => by
    have h2 : 2 * (k + 1) = 2 * k + 1 + 1 := by ring
    rw [h2, List.take_succ_cons, List.take_succ_cons]
    simp [hexDecodeAscii, hexDecodeAscii_take k rest]

theorem hexDecodeAscii_drop : ∀ (k : Nat) (l : List Nat),
    hexDecodeAscii (l.drop (2 * k)) = (hexDecodeAscii l).drop k
  | 0, l => by simp
  | k + 1, [] => by simp [hexDecodeAscii]
  | k + 1, [c] => by
    rw [List.drop_of_length_le (by simp; omega)]
    simp [hexDecodeAscii]
  | k + 1, c1 :: c2 :: rest => by
    have h2 : 2 * (k + 1) = 2 * k + 1 + 1 := by ring
    rw [h2, List.drop_succ_cons, List.drop_succ_cons]
    simp [hexDecodeAscii, hexDecodeAscii_drop k rest]

theorem hexDecode_hexEncode (l : List Nat) (h : ∀ b ∈ l, b < 256) :
    hexDecodeAscii (hexEncodeAscii l) = l := by
  induction l with
  | nil => rfl
  | cons b t ih =>
    have hb : b < 256 := h b (by simp)
    simp only [hexEncodeAscii, hexDecodeAscii]
    rw [hexCharVal_hexDigitChar _ (shiftRight4_lt b hb), hexCharVal_hexDigitChar _ (and15_lt b),
      byte_recompose b hb, ih (fun x hx => h x (by simp [hx]))]

theorem hexEncodeAscii_drop : ∀ (k : Nat) (l : List Nat),
    hexEncodeAscii (l.drop k) = (hexEncodeAscii l).drop (2 * k)
  | 0, l => by simp
  | k + 1, [] => by simp [hexEncodeAscii]
  | k + 1, b :: t => by
    have h2 : 2 * (k + 1) = 2 * k + 1 + 1 := by ring
    rw [h2, List.drop_succ_cons]
    simp only [hexEncodeAscii, List.drop_succ_cons]
    exact hexEncodeAscii_drop k t

theorem hexDigitChar_range : ∀ n, n < 16 →
    (48 ≤ hexDigitChar n ∧ hexDigitChar n ≤ 57) ∨ (97 ≤ hexDigitChar n ∧ hexDigitChar n ≤ 102) := by
  decide

theorem hexEncodeAscii_mem_range (l : List Nat) (h : ∀ b ∈ l, b < 256) :
    ∀ c ∈ hexEncodeAscii l, (48 ≤ c ∧ c ≤ 57) ∨ (97 ≤ c ∧ c ≤ 102) := by
  induction l with
  | nil => simp [hexEncodeAscii]
  | cons b t ih =>
    intro c hc
    have hb : b < 256 := h b (by simp)
    simp only [hexEncodeAscii, List.mem_cons] at hc
    rcases hc with rfl | rfl | hc
    · exact hexDigitChar_range _ (shiftRight4_lt b hb)
    · exact hexDigitChar_range _ (and15_lt b)
    · exact ih (fun x hx => h x (by simp [hx])) c hc

/-! Lemmas about string bytes, lowercasing and checksum casing. -/

theorem charToNat_lt_uni (c : Char) : c.toNat < 0x110000 := by
  have h := c.valid
  rcases h with h | ⟨_, h⟩
  · exact Nat.lt_trans h (by norm_num)
  · exact h

theorem utf8EncodeNat_lt (n : Nat) (hn : n < 0x110000) : ∀ b ∈ utf8EncodeNat n, b < 256 := by
  intro b hb
  unfold utf8EncodeNat at hb
  have hand : ∀ m : Nat, m &&& 0x3F ≤ 63 := fun m => Nat.and_le_right
  split_ifs at hb
  · simp at hb
    omega
  · simp at hb
    rcases hb with rfl | rfl
    · have : n >>> 6 < 32 := by
        rw [Nat.shiftRight_eq_div_pow]
        omega
      omega
    · have := hand n
      omega
  · simp at hb
    rcases hb with rfl | rfl | rfl
    · have : n >>> 12 < 16 := by
        rw [Nat.shiftRight_eq_div_pow]
        omega
      omega
    · have := hand (n >>> 6)
      omega
    · have := hand n
      omega
  · simp at hb
    rcases hb with rfl | rfl | rfl | rfl
    · have : n >>> 18 < 5 := by
        rw [Nat.shiftRight_eq_div_pow]
        omega
      omega
    · have := hand (n >>> 12)
      omega
    · have := hand (n >>> 6)
      omega
    · have := hand n
      omega

theorem strBytes_lt (s : String) : ∀ b ∈ strBytes s, b < 256 := by
  intro b hb
  simp only [strBytes, List.mem_flatMap] at hb
  obtain ⟨c, _, hc⟩ := hb
  exact utf8EncodeNat_lt c.toNat (charToNat_lt_uni c) b hc

theorem toLowerByte_of_hexChar (c : Nat)
    (h : (48 ≤ c ∧ c ≤ 57) ∨ (97 ≤ c ∧ c ≤ 102)) : toLowerByte c = c := by
  unfold toLowerByte
  split <;> omega

theorem map_toLowerByte_of_hexChars (l : List Nat)
    (h : ∀ c ∈ l, (48 ≤ c ∧ c ≤ 57) ∨ (97 ≤ c ∧ c ≤ 102)) : l.map toLowerByte = l := by
  induction l with
  | nil => rfl
  | cons c t ih =>
    simp only [List.map_cons, toLowerByte_of_hexChar c (h c (by simp)),
      ih (fun x hx => h x (by simp [hx]))]

theorem zipWith_checksum_lower (hash : List Nat) : ∀ (l ns : List Nat),
    (∀ c ∈ l, (48 ≤ c ∧ c ≤ 57) ∨ (97 ≤ c ∧ c ≤ 102)) →
    (List.zipWith
      (fun i c => if 97 ≤ c ∧ c ≤ 102 ∧ 8 ≤ nibbleAt hash i then c - 32 else c)
      ns l).map toLowerByte = l.take ns.length
  | _, [], _ => by simp
  | [], n :: nt, _ => by simp
  | c :: t, n :: nt, h => by
    simp only [List.zipWith_cons_cons, List.map_cons, List.length_cons, List.take_succ_cons]
    rw [zipWith_checksum_lower hash t nt (fun x hx => h x (by simp [hx]))]
    congr 1
    have hc := h c (by simp)
    unfold toLowerByte
    split
    · split <;> omega
    · split <;> omega

theorem checksumApply_lower (hexChars hash : List Nat)
    (h : ∀ c ∈ hexChars, (48 ≤ c ∧ c ≤ 57) ∨ (97 ≤ c ∧ c ≤ 102)) :
    (checksumApply hexChars hash).map toLowerByte = hexChars := by
  unfold checksumApply
  rw [zipWith_checksum_lower hash hexChars (List.range hexChars.length) h]
  simp

theorem zipWith_checksum_lt (hash : List Nat) : ∀ (l ns : List Nat),
    (∀ c ∈ l, (48 ≤ c ∧ c ≤ 57) ∨ (97 ≤ c ∧ c ≤ 102)) →
    ∀ x ∈ List.zipWith
      (fun i c => if 97 ≤ c ∧ c ≤ 102 ∧ 8 ≤ nibbleAt hash i then c - 32 else c) ns l,
      x < 128
  | _, [], _ => by simp
  | [], n :: nt, _ => by simp
  | c :: t, n :: nt, h => by
    intro x hx
    simp only [List.zipWith_cons_cons, List.mem_cons] at hx
    have hc := h c (by simp)
    rcases hx with rfl | hx
    · split <;> omega
    · exact zipWith_checksum_lt hash t nt (fun y hy => h y (by simp [hy])) x hx

theorem checksumApply_lt (hexChars hash : List Nat)
    (h : ∀ c ∈ hexChars, (48 ≤ c ∧ c ≤ 57) ∨ (97 ≤ c ∧ c ≤ 102)) :
    ∀ x ∈ checksumApply hexChars hash, x < 128 :=
  zipWith_checksum_lt hash hexChars (List.range hexChars.length) h

theorem charToNat_charOfNat (n : Nat) (h : n < 0xd800) : (Char.ofNat n).toNat = n := by
  have hv : n.isValidChar := Or.inl h
  simp only [Char.ofNat, hv, dif_pos, Char.ofNatAux, Char.toNat]
  rfl

theorem asciiToString_data (l : List Nat) : (asciiToString l).data = l.map Char.ofNat := rfl

theorem map_toNat_map_ofNat (l : List Nat) (h : ∀ x ∈ l, x < 128) :
    (l.map Char.ofNat).map Char.toNat = l := by
  induction l with
  | nil => rfl
  | cons x t ih =>
    simp only [List.map_cons, charToNat_charOfNat x (by have := h x (by simp); omega),
      ih (fun y hy => h y (by simp [hy]))]

/-! Lemmas about the salt padding. -/

theorem range_map_getD : ∀ (bytes : List Nat) (n : Nat), bytes.length ≤ n →
    (List.range n).map (fun i => bytes.getD i 0) = bytes ++ List.replicate (n - bytes.length) 0
  | [], n, _ => by
    simp [List.map_const']
  | b :: t, 0, h => by simp at h
  | b :: t, n + 1, h => by
    rw [List.range_succ_eq_map]
    simp only [List.map_cons, List.getD_cons_zero, List.map_map]
    have : (fun i => (b :: t).getD i 0) ∘ Nat.succ = fun i => t.getD i 0 := by
      funext i
      simp [List.getD_cons_succ]
    rw [this, range_map_getD t n (by simp at h; omega)]
    have hlen : n + 1 - (b :: t).length = n - t.length := by
      simp only [List.length_cons]
      omega
    simp [hlen]

theorem stringToHexBytes_eq (bytes : List Nat) (size : Nat) (h : bytes.length ≤ size) :
    stringToHexBytes bytes size =
      hexEncodeAscii (bytes ++ List.replicate (size - bytes.length) 0) := by
  unfold stringToHexBytes
  rw [if_neg (by omega), range_map_getD bytes size h]

theorem stringToHexBytes_length (bytes : List Nat) (size : Nat) (h : bytes.length ≤ size) :
    (stringToHexBytes bytes size).length = 2 * size := by
  rw [stringToHexBytes_eq bytes size h, hexEncodeAscii_length]
  simp
  omega

/-! Lemmas about address validation and the cache. -/

theorem lookup_mem : ∀ (c : AddrCache) (k : String) (v : Bool),
    c.lookup k = some v → (k, v) ∈ c
  | [], k, v, h => by simp [List.lookup] at h
  | (k', v') :: t, k, v, h => by
    simp only [List.lookup] at h
    split at h
    · rename_i hk
      simp only [Option.some.injEq] at h
      have : k = k' := by
        have := hk
        simp [beq_iff_eq] at this
        exact this
      simp [this, h]
    · exact List.mem_cons_of_mem _ (lookup_mem t k v h)

theorem pureValid_eq (s : String) :
    pureValid s = (addrPrecheck (strBytes s) && ((strBytes s).drop 2).all isHexByte) := by
  unfold pureValid isValidAddress
  by_cases h : addrPrecheck (strBytes s)
  · simp [h, List.lookup]
  · simp [h]

theorem isValid_fst_of_consistent (c : AddrCache) (s : String) (hc : cacheConsistent c) :
    (isValidAddress c s).fst = pureValid s := by
  unfold isValidAddress
  by_cases h : addrPrecheck (strBytes s)
  · simp only [h, if_pos]
    rcases hl : (c.lookup s) with _ | v
    · simp [pureValid_eq, h]
    · simp only []
      exact (hc _ (lookup_mem c s v hl)).2
  · simp [h, pureValid_eq]

theorem isValid_snd_consistent (c : AddrCache) (s : String) (hc : cacheConsistent c) :
    cacheConsistent (isValidAddress c s).snd := by
  unfold isValidAddress
  by_cases h : addrPrecheck (strBytes s)
  · simp only [h, if_pos]
    rcases hl : (c.lookup s) with _ | v
    · simp only []
      intro p hp
      rcases List.mem_cons.mp hp with rfl | hp
      · exact ⟨h, by simp [pureValid_eq, h]⟩
      · exact hc p hp
    · simpa using hc
  · simpa [h] using hc

theorem runCalls_consistent : ∀ prior : List String, cacheConsistent (runCalls prior)
  | [] => by intro p hp; simp [runCalls] at hp
  | s :: rest => by
    unfold runCalls
    exact isValid_snd_consistent _ s (runCalls_consistent rest)

theorem all_eq_true_iff_getD (l : List Nat) (p : Nat → Bool) (d : Nat) :
    l.all p = true ↔ ∀ i, i < l.length → p (l.getD i d) = true := by
  rw [List.all_eq_true]
  constructor
  · intro h i hi
    rw [List.getD_eq_getElem l d hi]
    exact h _ (List.getElem_mem hi)
  · intro h x hx
    obtain ⟨i, hi, rfl⟩ := List.mem_iff_getElem.mp hx
    have hh := h i hi
    rwa [List.getD_eq_getElem l d hi] at hh

theorem predict_fst_of_consistent (c : AddrCache) (impl depl salt : String)
    (hc : cacheConsistent c) :
    (PredictDeterministicAddress c impl depl salt).fst =
      if pureValid impl = false then Except.error ("无效的实现合约地址: " ++ impl)
      else if pureValid depl = false then Except.error ("无效的部署者地址: " ++ depl)
      else if 32 < (strBytes salt).length then Except.error "盐值长度不能超过32个字符"
      else Except.ok (asciiToString (predictOkAscii impl depl salt)) := by
  unfold PredictDeterministicAddress
  rcases hv1 : isValidAddress c impl with ⟨b1, c1⟩
  have hb1 : b1 = pureValid impl := by
    have := isValid_fst_of_consistent c impl hc
    rw [hv1] at this
    exact this
  have hc1 : cacheConsistent c1 := by
    have := isValid_snd_consistent c impl hc
    rwa [hv1] at this
  rcases b1 with _ | _
  · simp [hv1, ← hb1]
  · rcases hv2 : isValidAddress c1 depl with ⟨b2, c2⟩
    have hb2 : b2 = pureValid depl := by
      have := isValid_fst_of_consistent c1 depl hc1
      rw [hv2] at this
      exact this
    rcases b2 with _ | _
    · simp [hv1, hv2, ← hb1, ← hb2]
    · by_cases hs : 32 < (strBytes salt).length
      · simp [hv1, hv2, ← hb1, ← hb2, hs]
      · simp [hv1, hv2, ← hb1, ← hb2, hs]

/-! Decomposition of the successful prediction path. -/

theorem pureValid_length (s : String) (h : pureValid s = true) : (strBytes s).length = 42 := by
  rw [pureValid_eq] at h
  simp only [Bool.and_eq_true, addrPrecheck] at h
  have := h.1.1.1
  simpa using this

theorem pfx_decode : hexDecodeAscii (strBytes MinProxyBytecodePfx) = specProxyPrefixBytes := by
  decide

theorem sfx_decode : hexDecodeAscii (strBytes MinProxyBytecodeSfx) = specProxySuffixBytes := by
  decide

theorem pfx_length : (strBytes MinProxyBytecodePfx).length = 40 := by decide

theorem sfx_length : (strBytes MinProxyBytecodeSfx).length = 32 := by decide

theorem saltPad_lt (salt : String) :
    ∀ b ∈ strBytes salt ++ List.replicate (32 - (strBytes salt).length) 0, b < 256 := by
  intro b hb
  rcases List.mem_append.mp hb with h | h
  · exact strBytes_lt salt b h
  · have := List.eq_of_mem_replicate h
    omega

theorem bytecodeChars_decode (impl depl salt : String)
    (h1 : pureValid impl = true) (h2 : pureValid depl = true)
    (h3 : (strBytes salt).length ≤ 32) :
    hexDecodeAscii (bytecodeChars impl depl salt) =
      specProxyPrefixBytes ++ addrStringBytes impl ++ specProxySuffixBytes ++
        addrStringBytes depl ++
        (strBytes salt ++ List.replicate (32 - (strBytes salt).length) 0) := by
  have hImplLen : (((strBytes impl).drop 2).map toLowerByte).length = 40 := by
    simp [pureValid_length impl h1]
  have hDeplLen : (((strBytes depl).drop 2).map toLowerByte).length = 40 := by
    simp [pureValid_length depl h2]
  unfold bytecodeChars
  rw [stringToHexBytes_eq _ _ h3]
  rw [hexDecodeAscii_append _ _ (by
    simp [pfx_length, sfx_length, pureValid_length impl h1, pureValid_length depl h2])]
  rw [hexDecodeAscii_append _ _ (by
    simp [pfx_length, sfx_length, pureValid_length impl h1, pureValid_length depl h2])]
  rw [hexDecodeAscii_append _ _ (by
    simp [pfx_length, sfx_length, pureValid_length impl h1, pureValid_length depl h2])]
  rw [hexDecodeAscii_append _ _ (by
    simp [pfx_length, sfx_length, pureValid_length impl h1, pureValid_length depl h2])]
  rw [pfx_decode, sfx_decode, hexDecode_hexEncode _ (saltPad_lt salt)]
  simp [addrStringBytes, List.append_assoc]

theorem bytecodeChars_length (impl depl salt : String)
    (h1 : pureValid impl = true) (h2 : pureValid depl = true)
    (h3 : (strBytes salt).length ≤ 32) :
    (bytecodeChars impl depl salt).length = 216 := by
  unfold bytecodeChars
  rw [stringToHexBytes_eq _ _ h3]
  simp [pfx_length, sfx_length, pureValid_length impl h1, pureValid_length depl h2,
    hexEncodeAscii_length]
  omega

theorem predictOkAscii_spec (impl depl salt : String)
    (h1 : pureValid impl = true) (h2 : pureValid depl = true)
    (h3 : (strBytes salt).length ≤ 32) :
    predictOkAscii impl depl salt =
      48 :: 120 :: checksumAddressChars
        (specCandidateBytes (addrStringBytes impl) (addrStringBytes depl) (strBytes salt)) := by
  have hdec := bytecodeChars_decode impl depl salt h1 h2 h3
  have hlen := bytecodeChars_length impl depl salt h1 h2 h3
  simp only [predictOkAscii, specCandidateBytes]
  rw [show (110 : Nat) = 2 * 55 from rfl]
  rw [hexDecodeAscii_take 55 _, hdec]
  rw [List.drop_append_eq_append_drop, hlen]
  rw [show (2 * 55 - 216 : Nat) = 0 from rfl, List.drop_zero]
  rw [List.take_of_length_le (by
    simp [hlen, keccak256_length, hexEncodeAscii_length])]
  rw [hexDecodeAscii_append _ _ (by simp [hlen])]
  rw [hexDecodeAscii_drop 55 _, hdec]
  rw [hexDecode_hexEncode _ (keccak256_lt _)]
  rw [hexEncodeAscii_length, keccak256_length]
  rw [show (2 * 32 - 40 : Nat) = 2 * 12 from rfl]
  rw [← hexEncodeAscii_drop 12 _]
  rw [hexDecode_hexEncode _ (fun b hb => keccak256_lt _ b (List.drop_subset _ _ hb))]

/-! Arithmetic lemmas for positional number systems. -/

theorem foldl_mul_add (m : Nat) : ∀ (l : List Nat) (a : Nat),
    l.foldl (fun x b => x * m + b) a = a * m ^ l.length + l.foldl (fun x b => x * m + b) 0
  | [], a => by simp
  | b :: t, a => by
    simp only [List.foldl_cons, List.length_cons]
    rw [foldl_mul_add m t (a * m + b), foldl_mul_add m t (0 * m + b)]
    ring

theorem baseVal_cons (b : Nat) (t : List Nat) :
    baseVal (b :: t) = b * 256 ^ t.length + baseVal t := by
  simp only [baseVal, List.foldl_cons]
  rw [foldl_mul_add 256 t (0 * 256 + b)]
  ring_nf

theorem baseVal_append (a b : List Nat) :
    baseVal (a ++ b) = baseVal a * 256 ^ b.length + baseVal b := by
  simp only [baseVal, List.foldl_append]
  rw [foldl_mul_add 256 b (List.foldl _ 0 a)]

theorem baseVal_append_singleton (a : List Nat) (q : Nat) :
    baseVal (a ++ [q]) = baseVal a * 256 + q := by
  rw [baseVal_append]
  simp [baseVal]

theorem val58_reverse_cons (r : Nat) (ds : List Nat) :
    val58 ((r :: ds).reverse) = val58 ds.reverse * 58 + r := by
  simp only [List.reverse_cons, val58, List.foldl_append, List.foldl_cons, List.foldl_nil]

theorem baseVal_lt (l : List Nat) (h : ∀ b ∈ l, b < 256) : baseVal l < 256 ^ l.length := by
  induction l with
  | nil => simp [baseVal]
  | cons b t ih =>
    rw [baseVal_cons]
    have hb : b < 256 := h b (by simp)
    have ht := ih (fun x hx => h x (by simp [hx]))
    have h1 : b * 256 ^ t.length + baseVal t < (b + 1) * 256 ^ t.length := by
      have := Nat.add_lt_add_left ht (b * 256 ^ t.length)
      calc b * 256 ^ t.length + baseVal t < b * 256 ^ t.length + 256 ^ t.length := this
        _ = (b + 1) * 256 ^ t.length := by ring
    calc b * 256 ^ t.length + baseVal t < (b + 1) * 256 ^ t.length := h1
      _ ≤ 256 * 256 ^ t.length := Nat.mul_le_mul_right _ (by omega)
      _ = 256 ^ (b :: t).length := by
        simp [List.length_cons]
        ring

theorem baseVal_pos (l : List Nat) (hl : l ≠ []) (hh : headNZ l) : 1 ≤ baseVal l := by
  rcases l with _ | ⟨b, t⟩
  · exact absurd rfl hl
  · rw [baseVal_cons]
    have hb : b ≠ 0 := by simpa [headNZ] using hh
    have : 1 ≤ 256 ^ t.length := Nat.one_le_two_pow.trans (Nat.pow_le_pow_left (by norm_num) _)
    calc 1 ≤ b * 256 ^ t.length := by
          have : 1 * 1 ≤ b * 256 ^ t.length :=
            Nat.mul_le_mul (by omega) this
          simpa using this
      _ ≤ b * 256 ^ t.length + baseVal t := Nat.le_add_right _ _

theorem baseVal_replicate_zero (z : Nat) : baseVal (List.replicate z 0) = 0 := by
  induction z with
  | zero => rfl
  | succ n ih =>
    rw [List.replicate_succ, baseVal_cons, ih]
    simp

/-! Correctness of the Base58 long division. -/

theorem divStepF_fold : ∀ (temp : List Nat) (r : Nat) (acc : List Nat),
    r < 58 → (∀ b ∈ temp, b < 256) → (∀ x ∈ acc, x < 256) → headNZ acc →
    (temp.foldl divStepF (r, acc)).1 < 58 ∧
    (∀ x ∈ (temp.foldl divStepF (r, acc)).2, x < 256) ∧
    headNZ (temp.foldl divStepF (r, acc)).2 ∧
    baseVal (temp.foldl divStepF (r, acc)).2 * 58 + (temp.foldl divStepF (r, acc)).1 =
      (baseVal acc * 58 + r) * 256 ^ temp.length + baseVal temp
  | [], r, acc, hr, _, hacc, hhd => by
    refine ⟨hr, hacc, hhd, ?_⟩
    simp [baseVal]
  | b :: t, r, acc, hr, hb, hacc, hhd => by
    have hb0 : b < 256 := hb b (by simp)
    have hstep : divStepF (r, acc) b =
        ((r * 256 + b) % 58,
          if (r * 256 + b) / 58 > 0 ∨ acc ≠ [] then acc ++ [(r * 256 + b) / 58] else acc) := rfl
    have hq : (r * 256 + b) / 58 < 256 := by
      rw [Nat.div_lt_iff_lt_mul (by norm_num)]
      omega
    have hr' : (r * 256 + b) % 58 < 58 := Nat.mod_lt _ (by norm_num)
    have hkey : ∀ acc2 : List Nat, acc2 =
        (if (r * 256 + b) / 58 > 0 ∨ acc ≠ [] then acc ++ [(r * 256 + b) / 58] else acc) →
        baseVal acc2 * 58 + (r * 256 + b) % 58 = (baseVal acc * 58 + r) * 256 + b ∧
        (∀ x ∈ acc2, x < 256) ∧ headNZ acc2 := by
      intro acc2 hacc2
      by_cases hcond : (r * 256 + b) / 58 > 0 ∨ acc ≠ []
      · rw [if_pos hcond] at hacc2
        subst hacc2
        refine ⟨?_, ?_, ?_⟩
        · rw [baseVal_append_singleton]
          have hdm := Nat.div_add_mod (r * 256 + b) 58
          ring_nf
          ring_nf at hdm
          omega
        · intro x hx
          rcases List.mem_append.mp hx with h | h
          · exact hacc x h
          · simp at h
            omega
        · rcases acc with _ | ⟨a0, at0⟩
          · have hq0 : (r * 256 + b) / 58 > 0 := by
              rcases hcond with h | h
              · exact h
              · exact absurd rfl h
            simp [headNZ]
            omega
          · simpa [headNZ] using (by simpa [headNZ] using hhd)
      · rw [if_neg hcond] at hacc2
        push_neg at hcond
        obtain ⟨hq0, haccnil⟩ := hcond
        subst haccnil
        subst hacc2
        refine ⟨?_, by simp, by simp [headNZ]⟩
        have hlt : r * 256 + b < 58 := by
          by_contra hge
          push_neg at hge
          have : (r * 256 + b) / 58 > 0 := Nat.div_pos hge (by norm_num)
          omega
        simp [baseVal, Nat.mod_eq_of_lt hlt]
    have hmain := hkey _ rfl
    have ih := divStepF_fold t ((r * 256 + b) % 58)
      (if (r * 256 + b) / 58 > 0 ∨ acc ≠ [] then acc ++ [(r * 256 + b) / 58] else acc)
      hr' (fun x hx => hb x (by simp [hx])) hmain.2.1 hmain.2.2
    simp only [List.foldl_cons, hstep]
    refine ⟨ih.1, ih.2.1, ih.2.2.1, ?_⟩
    rw [ih.2.2.2, hmain.1, baseVal_cons]
    simp only [List.length_cons]
    ring

theorem divStep_spec (temp : List Nat) (hb : ∀ b ∈ temp, b < 256) :
    (divStep temp).1 = baseVal temp % 58 ∧
    baseVal (divStep temp).2 = baseVal temp / 58 ∧
    (∀ x ∈ (divStep temp).2, x < 256) ∧
    headNZ (divStep temp).2 ∧
    ((divStep temp).2 = [] ↔ baseVal temp < 58) := by
  have h := divStepF_fold temp 0 [] (by norm_num) hb (by simp) (by simp [headNZ])
  rw [show temp.foldl divStepF (0, []) = divStep temp from rfl] at h
  have hid : baseVal (divStep temp).2 * 58 + (divStep temp).1 = baseVal temp := by
    rw [h.2.2.2]
    simp [baseVal]
  have h1 : (divStep temp).1 < 58 := h.1
  have hfst : (divStep temp).1 = baseVal temp % 58 := by omega
  have hsnd : baseVal (divStep temp).2 = baseVal temp / 58 := by omega
  refine ⟨hfst, hsnd, h.2.1, h.2.2.1, ?_⟩
  constructor
  · intro hnil
    rw [hnil] at hsnd
    rw [show baseVal ([] : List Nat) = 0 from rfl] at hsnd
    omega
  · intro hlt
    have hz : baseVal (divStep temp).2 = 0 := by omega
    rcases hd : (divStep temp).2 with _ | ⟨x, xs⟩
    · rfl
    · exfalso
      have hpos := baseVal_pos (divStep temp).2 (by simp [hd]) h.2.2.1
      omega

theorem b58Digits_nil (fuel : Nat) : b58Digits fuel [] = [] := by
  cases fuel <;> simp [b58Digits]

theorem headNZ_append_left (l m : List Nat) (hl : l ≠ []) (hh : headNZ l) :
    headNZ (l ++ m) := by
  rcases l with _ | ⟨x, t⟩
  · exact absurd rfl hl
  · simpa [headNZ] using hh

theorem b58Digits_spec : ∀ (fuel : Nat) (temp : List Nat),
    (∀ b ∈ temp, b < 256) → baseVal temp < 58 ^ fuel →
    val58 (b58Digits fuel temp).reverse = baseVal temp ∧
    (∀ d ∈ b58Digits fuel temp, d < 58) ∧
    (1 ≤ baseVal temp →
      b58Digits fuel temp ≠ [] ∧ headNZ (b58Digits fuel temp).reverse)
  | 0, temp, _, hfuel => by
    have : baseVal temp = 0 := by simpa using hfuel
    simp [b58Digits, val58, this]
  | f + 1, temp, hb, hfuel => by
    by_cases hnil : temp = []
    · subst hnil
      simp [b58Digits_nil, val58, show baseVal ([] : List Nat) = 0 from rfl]
    · have hds := divStep_spec temp hb
      have hV58 : baseVal (divStep temp).2 < 58 ^ f := by
        rw [hds.2.1]
        rw [Nat.div_lt_iff_lt_mul (by norm_num)]
        calc baseVal temp < 58 ^ (f + 1) := hfuel
          _ = 58 ^ f * 58 := by ring
      have ih := b58Digits_spec f (divStep temp).2 hds.2.2.1 hV58
      have hunfold : b58Digits (f + 1) temp = (divStep temp).1 :: b58Digits f (divStep temp).2 := by
        simp [b58Digits, hnil]
      rw [hunfold]
      refine ⟨?_, ?_, ?_⟩
      · rw [val58_reverse_cons, ih.1, hds.2.1, hds.1]
        omega
      · intro d hd
        rcases List.mem_cons.mp hd with rfl | hd
        · rw [hds.1]
          exact Nat.mod_lt _ (by norm_num)
        · exact ih.2.1 d hd
      · intro hV1
        refine ⟨by simp, ?_⟩
        by_cases hsmall : baseVal temp < 58
        · have hTnil : (divStep temp).2 = [] := hds.2.2.2.2.mpr hsmall
          rw [hTnil, b58Digits_nil]
          simp only [List.reverse_cons, List.reverse_nil, List.nil_append]
          have : (divStep temp).1 = baseVal temp := by
            rw [hds.1, Nat.mod_eq_of_lt hsmall]
          simp [headNZ, this]
          omega
        · push_neg at hsmall
          have hVq : 1 ≤ baseVal (divStep temp).2 := by
            rw [hds.2.1]
            exact Nat.one_le_div_iff (by norm_num) |>.mpr hsmall
          obtain ⟨hne, hhd⟩ := ih.2.2 hVq
          simp only [List.reverse_cons]
          exact headNZ_append_left _ _ (by simpa using hne) hhd

theorem b58CharIndex_alphabet : ∀ d, d < 58 → b58CharIndex (b58Alphabet.getD d 0) = d := by
  decide

theorem alphabet_ne_one : ∀ d, d < 58 → 1 ≤ d → b58Alphabet.getD d 0 ≠ 49 := by
  decide

theorem foldl_map_alphabet : ∀ (ds : List Nat) (a : Nat), (∀ d ∈ ds, d < 58) →
    (ds.map (fun d => b58Alphabet.getD d 0)).foldl (fun x c => x * 58 + b58CharIndex c) a =
      ds.foldl (fun x d => x * 58 + d) a
  | [], a, _ => rfl
  | d :: t, a, h => by
    simp only [List.map_cons, List.foldl_cons]
    rw [b58CharIndex_alphabet d (h d (by simp))]
    exact foldl_map_alphabet t _ (fun x hx => h x (by simp [hx]))

theorem countLeadingOnes_replicate (z : Nat) (c : Nat) (r : List Nat) (hc : c ≠ 49) :
    countLeadingOnes (List.replicate z 49 ++ c :: r) = z := by
  induction z with
  | zero => simp [countLeadingOnes, hc]
  | succ n ih => simp [List.replicate_succ, countLeadingOnes, ih]

theorem countLeadingZeroBytes_cons_zero (t : List Nat) :
    countLeadingZeroBytes (0 :: t) = countLeadingZeroBytes t + 1 := by
  simp [countLeadingZeroBytes]

theorem leadZero_decomp : ∀ l : List Nat,
    List.replicate (countLeadingZeroBytes l) 0 ++ l.drop (countLeadingZeroBytes l) = l
  | [] => rfl
  | b :: t => by
    by_cases hb : b = 0
    · subst hb
      rw [countLeadingZeroBytes_cons_zero]
      simp only [List.replicate_succ, List.cons_append, List.drop_succ_cons]
      rw [leadZero_decomp t]
    · simp [countLeadingZeroBytes, hb]

theorem leadZero_head : ∀ l : List Nat, (∃ b ∈ l, b ≠ 0) →
    l.drop (countLeadingZeroBytes l) ≠ [] ∧ headNZ (l.drop (countLeadingZeroBytes l))
  | [], h => by simp at h
  | b :: t, h => by
    by_cases hb : b = 0
    · subst hb
      have ht : ∃ x ∈ t, x ≠ 0 := by
        obtain ⟨x, hx, hxne⟩ := h
        rcases List.mem_cons.mp hx with rfl | hx
        · exact absurd rfl hxne
        · exact ⟨x, hx, hxne⟩
      simpa [countLeadingZeroBytes] using leadZero_head t ht
    · simp [countLeadingZeroBytes, hb, headNZ]

theorem natToBytesBE_spec (l : List Nat) : ∀ (fuel : Nat),
    (∀ b ∈ l, b < 256) → headNZ l → baseVal l + 1 ≤ fuel →
    natToBytesBE fuel (baseVal l) = l := by
  induction l using List.reverseRecOn with
  | nil =>
    intro fuel _ _ hfuel
    rcases fuel with _ | f
    · omega
    · simp [natToBytesBE, show baseVal ([] : List Nat) = 0 from rfl]
  | append_singleton t b ih =>
    intro fuel hb hh hfuel
    have hblt : b < 256 := hb b (by simp)
    have hV : baseVal (t ++ [b]) = baseVal t * 256 + b := baseVal_append_singleton t b
    have hVpos : 1 ≤ baseVal (t ++ [b]) := by
      rcases t with _ | ⟨x, xs⟩
      · have : b ≠ 0 := by simpa [headNZ] using hh
        simp only [List.nil_append] at hV ⊢
        rw [show baseVal ([] : List Nat) = 0 from rfl] at hV
        omega
      · have hxpos : 1 ≤ baseVal (x :: xs) :=
          baseVal_pos (x :: xs) (by simp) (by simpa [headNZ] using hh)
        have : 256 ≤ baseVal (x :: xs) * 256 := by omega
        omega
    rcases fuel with _ | f
    · omega
    · simp only [natToBytesBE, if_neg (by omega : ¬baseVal (t ++ [b]) = 0)]
      have hdiv : baseVal (t ++ [b]) / 256 = baseVal t := by
        rw [hV]
        omega
      have hmod : baseVal (t ++ [b]) % 256 = b := by
        rw [hV]
        omega
      rw [hdiv, hmod]
      rcases t with _ | ⟨x, xs⟩
      · rw [show baseVal ([] : List Nat) = 0 from rfl]
        rcases f with _ | f2
        · rw [show baseVal ([] : List Nat) = 0 from rfl] at hdiv hV
          omega
        · simp [natToBytesBE]
      · rw [ih f (fun y hy => hb y (by
          have := List.mem_append_left [b] hy
          simpa using this)) (by simpa [headNZ] using hh) (by
          have : baseVal (x :: xs) * 256 ≥ baseVal (x :: xs) + 1 := by
            have := baseVal_pos (x :: xs) (by simp) (by simpa [headNZ] using hh)
            omega
          omega)]

theorem base58_encode_decomp (payload : List Nat)
    (hb : ∀ b ∈ payload, b < 256) (hnz : ∃ b ∈ payload, b ≠ 0)
    (hfuel : baseVal payload < 58 ^ (8 * payload.length + 8)) :
    countLeadingOnes (base58_encode payload) = countLeadingZeroBytes payload ∧
    base58_decode (base58_encode payload) = payload := by
  obtain ⟨hrne, hrhd⟩ := leadZero_head payload hnz
  have hdecomp := leadZero_decomp payload
  have hVrest : baseVal payload = baseVal (payload.drop (countLeadingZeroBytes payload)) := by
    conv_lhs => rw [← hdecomp]
    rw [baseVal_append, baseVal_replicate_zero]
    simp
  have hV1 : 1 ≤ baseVal payload := by
    rw [hVrest]
    exact baseVal_pos _ hrne hrhd
  have hspec := b58Digits_spec (8 * payload.length + 8) payload hb hfuel
  obtain ⟨hdne, hdhd⟩ := hspec.2.2 hV1
  rcases hrev : (b58Digits (8 * payload.length + 8) payload).reverse with _ | ⟨d0, ds⟩
  · exact absurd (by simpa using congrArg List.reverse hrev) hdne
  · have hd0ne : d0 ≠ 0 := by
      rw [hrev] at hdhd
      simpa [headNZ] using hdhd
    have hd0lt : d0 < 58 := by
      apply hspec.2.1
      have : d0 ∈ (b58Digits (8 * payload.length + 8) payload).reverse := by
        rw [hrev]
        simp
      simpa using this
    have hench : base58_encode payload =
        List.replicate (countLeadingZeroBytes payload) 49 ++
          (b58Digits (8 * payload.length + 8) payload).reverse.map
            (fun d => b58Alphabet.getD d 0) := by
      unfold base58_encode
      rw [List.reverse_append, List.reverse_replicate, List.map_reverse]
    have hclo : countLeadingOnes (base58_encode payload) = countLeadingZeroBytes payload := by
      rw [hench, hrev, List.map_cons]
      exact countLeadingOnes_replicate _ _ _ (alphabet_ne_one d0 hd0lt hd0ne.bot_lt)
    refine ⟨hclo, ?_⟩
    have hval : b58DigitsValue (base58_encode payload) = baseVal payload := by
      unfold b58DigitsValue
      rw [hclo, hench, List.drop_left' (by simp)]
      rw [foldl_map_alphabet _ 0 (fun d hd => hspec.2.1 d (by simpa using hd))]
      exact hspec.1
    unfold base58_decode
    rw [hclo, hval]
    rw [hVrest, natToBytesBE_spec _ _
      (fun y hy => hb y (List.drop_subset _ _ hy)) hrhd (by omega)]
    exact hdecomp

/-! Bridging lemmas for the validation predicate and checksum indexing. -/

theorem getD_drop_two (b : List Nat) (j : Nat) (h : 2 + j < b.length) :
    (b.drop 2).getD j 0 = b.getD (2 + j) 0 := by
  rw [List.getD_eq_getElem _ _ (by simp [List.length_drop]; omega),
    List.getD_eq_getElem _ _ h]
  simp [List.getElem_drop]

theorem hexLoop_iff (b : List Nat) (hlen : b.length = 42) :
    ((b.drop 2).all isHexByte = true ↔
      ∀ i, 2 ≤ i → i < 42 → isHexByte (b.getD i 0) = true) := by
  rw [all_eq_true_iff_getD _ _ 0]
  constructor
  · intro h i h2 h42
    have hh := h (i - 2) (by simp [List.length_drop, hlen]; omega)
    rw [getD_drop_two b (i - 2) (by omega)] at hh
    have he : 2 + (i - 2) = i := by omega
    rwa [he] at hh
  · intro h j hj
    simp only [List.length_drop, hlen] at hj
    rw [getD_drop_two b j (by omega)]
    exact h (2 + j) (by omega) (by omega)

theorem pureValid_iff_spec (s : String) : pureValid s = true ↔ specValidAddress s := by
  rw [pureValid_eq]
  unfold specValidAddress addrPrecheck
  simp only [Bool.and_eq_true, beq_iff_eq, Bool.or_eq_true]
  constructor
  · rintro ⟨⟨⟨hl, h0⟩, h1⟩, hloop⟩
    exact ⟨hl, h0, h1, (hexLoop_iff _ hl).mp hloop⟩
  · rintro ⟨hl, h0, h1, hloop⟩
    exact ⟨⟨⟨hl, h0⟩, h1⟩, (hexLoop_iff _ hl).mpr hloop⟩

theorem checksumApply_getD (hexChars hash : List Nat) (i : Nat) (h : i < hexChars.length) :
    (checksumApply hexChars hash).getD i 0 =
      if 97 ≤ hexChars.getD i 0 ∧ hexChars.getD i 0 ≤ 102 ∧ 8 ≤ nibbleAt hash i
      then hexChars.getD i 0 - 32 else hexChars.getD i 0 := by
  unfold checksumApply
  rw [List.getD_eq_getElem _ _ (by simp [List.length_zipWith]; omega)]
  rw [List.getElem_zipWith]
  rw [List.getD_eq_getElem _ _ h]
  congr 1
  simp

/-! Claim theorems. -/

/-- C1: for implementation `0xa84c57e9966df7df79bff42f35c68aae71796f64`, deployer
`0xfe15afcb5b9831b8af5fd984678250e95de8e312` and salt `"test-salt-test"`,
`PredictDeterministicAddress` returns `0x22FBFB2264B9Cd1ADe8ce5013012c817878D783C`
and no error. -/
theorem claim_C1_known_vector :
    (PredictDeterministicAddress [] "0xa84c57e9966df7df79bff42f35c68aae71796f64"
        "0xfe15afcb5b9831b8af5fd984678250e95de8e312" "test-salt-test").fst =
      Except.ok "0x22FBFB2264B9Cd1ADe8ce5013012c817878D783C" := by
  rfl

/-- C2: for every valid implementation and deployer address and every salt of at
most 32 bytes, the candidate address bytes produced by
`PredictDeterministicAddress` (its output lowercased and hex-decoded after the
`0x` prefix) equal the two-stage derivation of the spec: the last 20 bytes of
`Keccak256(bytes 55..108 of the 108-byte bytecode ++ Keccak256(bytes 0..55))`. -/
theorem claim_C2_two_stage (prior : List String) (impl depl salt : String)
    (h1 : pureValid impl = true) (h2 : pureValid depl = true)
    (h3 : (strBytes salt).length ≤ 32) :
    ∃ out : String,
      (PredictDeterministicAddress (runCalls prior) impl depl salt).fst = Except.ok out ∧
      addressBytesOfOutput out =
        specCandidateBytes (addrStringBytes impl) (addrStringBytes depl) (strBytes salt) := by
  refine ⟨asciiToString (predictOkAscii impl depl salt), ?_, ?_⟩
  · rw [predict_fst_of_consistent _ _ _ _ (runCalls_consistent prior)]
    simp [h1, h2, Nat.not_lt.mpr h3]
  · rw [predictOkAscii_spec impl depl salt h1 h2 h3]
    have hCBlt : ∀ b ∈ specCandidateBytes (addrStringBytes impl) (addrStringBytes depl)
        (strBytes salt), b < 256 := by
      unfold specCandidateBytes
      intro b hb
      exact keccak256_lt _ b (List.drop_subset _ _ hb)
    have hrange := hexEncodeAscii_mem_range _ hCBlt
    have hcs_lt : ∀ x ∈ checksumAddressChars (specCandidateBytes (addrStringBytes impl)
        (addrStringBytes depl) (strBytes salt)), x < 128 := by
      unfold checksumAddressChars checksumStep
      exact checksumApply_lt _ _ hrange
    unfold addressBytesOfOutput
    rw [asciiToString_data]
    rw [map_toNat_map_ofNat _ (by
      intro x hx
      rcases List.mem_cons.mp hx with rfl | hx
      · omega
      rcases List.mem_cons.mp hx with rfl | hx
      · omega
      · exact hcs_lt x hx)]
    rw [show List.drop 2 (48 :: 120 :: checksumAddressChars (specCandidateBytes
      (addrStringBytes impl) (addrStringBytes depl) (strBytes salt))) =
      checksumAddressChars (specCandidateBytes (addrStringBytes impl) (addrStringBytes depl)
        (strBytes salt)) from rfl]
    unfold checksumAddressChars checksumStep
    rw [checksumApply_lower _ _ hrange]
    exact hexDecode_hexEncode _ hCBlt

/-- C2 witness: the theorem instantiated at the fixed benchmark inputs with an
empty prior call list. -/
theorem claim_C2_witness :
    ∃ out : String,
      (PredictDeterministicAddress (runCalls []) "0xa84c57e9966df7df79bff42f35c68aae71796f64"
          "0xfe15afcb5b9831b8af5fd984678250e95de8e312" "test-salt-test").fst = Except.ok out ∧
      addressBytesOfOutput out =
        specCandidateBytes (addrStringBytes "0xa84c57e9966df7df79bff42f35c68aae71796f64")
          (addrStringBytes "0xfe15afcb5b9831b8af5fd984678250e95de8e312")
          (strBytes "test-salt-test") :=
  claim_C2_two_stage [] _ _ _ (by decide) (by decide) (by decide)

/-- C3: the checksum step uppercases the hex character at index `i` (for
characters in `a`..`f`) exactly when the i-th nibble of the Keccak-256 hash of
the lowercase hex string is at least 8; and lowercasing all letters of a
checksummed address then re-applying the checksum step reproduces the original
mixed-case characters (idempotence). -/
theorem claim_C3_checksum (addrBytes : List Nat) (hlen : addrBytes.length = 20)
    (hb : ∀ b ∈ addrBytes, b < 256) :
    (∀ i, i < 40 →
      (checksumAddressChars addrBytes).getD i 0 =
        if 97 ≤ (hexEncodeAscii addrBytes).getD i 0 ∧
            (hexEncodeAscii addrBytes).getD i 0 ≤ 102 ∧
            8 ≤ nibbleAt (keccak256 (hexEncodeAscii addrBytes)) i
        then (hexEncodeAscii addrBytes).getD i 0 - 32
        else (hexEncodeAscii addrBytes).getD i 0) ∧
    checksumStep ((checksumAddressChars addrBytes).map toLowerByte) =
      checksumAddressChars addrBytes := by
  have hrange := hexEncodeAscii_mem_range addrBytes hb
  have hlow : (checksumAddressChars addrBytes).map toLowerByte = hexEncodeAscii addrBytes := by
    unfold checksumAddressChars checksumStep
    exact checksumApply_lower _ _ hrange
  refine ⟨?_, ?_⟩
  · intro i hi
    unfold checksumAddressChars checksumStep
    exact checksumApply_getD _ _ i (by rw [hexEncodeAscii_length, hlen]; omega)
  · rw [hlow]
    rfl

/-- C3 witness: the theorem instantiated at the concrete address bytes
`0, 1, ..., 19`. -/
theorem claim_C3_witness :
    (∀ i, i < 40 →
      (checksumAddressChars (List.range 20)).getD i 0 =
        if 97 ≤ (hexEncodeAscii (List.range 20)).getD i 0 ∧
            (hexEncodeAscii (List.range 20)).getD i 0 ≤ 102 ∧
            8 ≤ nibbleAt (keccak256 (hexEncodeAscii (List.range 20))) i
        then (hexEncodeAscii (List.range 20)).getD i 0 - 32
        else (hexEncodeAscii (List.range 20)).getD i 0) ∧
    checksumStep ((checksumAddressChars (List.range 20)).map toLowerByte) =
      checksumAddressChars (List.range 20) :=
  claim_C3_checksum (List.range 20) (by decide) (by decide)

/-- C4: for every string and every reachable cache state, `isValidAddress`
returns `true` exactly when the string matches the address pattern
`^0[xX][0-9a-fA-F]{40}$` over its bytes (length exactly 42, prefix `0x` or
`0X`, then 40 ASCII hex digits of either case); any other string yields
`false` and no error. -/
theorem claim_C4_validation (prior : List String) (s : String) :
    (isValidAddress (runCalls prior) s).fst = true ↔ specValidAddress s := by
  rw [isValid_fst_of_consistent _ _ (runCalls_consistent prior)]
  exact pureValid_iff_spec s

/-- C4 witness: the theorem instantiated at the benchmark implementation
address with an empty prior call list, together with rejection facts for a
41-character string, a string containing `g`, and a string missing the
prefix, all evaluated concretely. -/
theorem claim_C4_witness :
    ((isValidAddress (runCalls []) "0xa84c57e9966df7df79bff42f35c68aae71796f64").fst = true ↔
      specValidAddress "0xa84c57e9966df7df79bff42f35c68aae71796f64") ∧
    (isValidAddress [] "0xa84c57e9966df7df79bff42f35c68aae71796f6").fst = false ∧
    (isValidAddress [] "0xg84c57e9966df7df79bff42f35c68aae71796f64").fst = false ∧
    (isValidAddress [] "a84c57e9966df7df79bff42f35c68aae71796f64ab").fst = false :=
  ⟨claim_C4_validation [] "0xa84c57e9966df7df79bff42f35c68aae71796f64",
    by decide, by decide, by decide⟩

/-- C5: `PredictDeterministicAddress` errors exactly when the implementation
address is invalid, the deployer address is invalid, or the salt exceeds 32
bytes; the invalid-address error names the failing argument and the
implementation is checked before the deployer; an over-long salt yields the
salt-too-long error. -/
theorem claim_C5_errors (prior : List String) (impl depl salt : String) :
    ((∃ e, (PredictDeterministicAddress (runCalls prior) impl depl salt).fst =
        Except.error e) ↔
      (pureValid impl = false ∨ pureValid depl = false ∨ 32 < (strBytes salt).length)) ∧
    (pureValid impl = false →
      (PredictDeterministicAddress (runCalls prior) impl depl salt).fst =
        Except.error ("无效的实现合约地址: " ++ impl)) ∧
    (pureValid impl = true → pureValid depl = false →
      (PredictDeterministicAddress (runCalls prior) impl depl salt).fst =
        Except.error ("无效的部署者地址: " ++ depl)) ∧
    (pureValid impl = true → pureValid depl = true → 32 < (strBytes salt).length →
      (PredictDeterministicAddress (runCalls prior) impl depl salt).fst =
        Except.error "盐值长度不能超过32个字符") := by
  have hp := predict_fst_of_consistent (runCalls prior) impl depl salt
    (runCalls_consistent prior)
  rcases himpl : pureValid impl with _ | _
  · simp [hp, himpl]
  · rcases hdepl : pureValid depl with _ | _
    · simp [hp, himpl, hdepl]
    · by_cases hs : 32 < (strBytes salt).length
      · simp [hp, himpl, hdepl, hs]
      · simp [hp, himpl, hdepl, hs]

/-- C5 witness: concrete error and acceptance cases; a 32-byte salt is
accepted while a 33-byte salt is rejected with the salt error, and each
invalid-address error names its argument. -/
theorem claim_C5_witness :
    (PredictDeterministicAddress (runCalls []) "bad"
        "0xfe15afcb5b9831b8af5fd984678250e95de8e312" "s").fst =
      Except.error ("无效的实现合约地址: " ++ "bad") ∧
    (PredictDeterministicAddress (runCalls []) "0xa84c57e9966df7df79bff42f35c68aae71796f64"
        "bad" "s").fst = Except.error ("无效的部署者地址: " ++ "bad") ∧
    (PredictDeterministicAddress (runCalls []) "0xa84c57e9966df7df79bff42f35c68aae71796f64"
        "0xfe15afcb5b9831b8af5fd984678250e95de8e312"
        "aaaaaaaaaaaaaaaaaaaaaaaaaaaaaaaaa").fst = Except.error "盐值长度不能超过32个字符" ∧
    ¬(∃ e, (PredictDeterministicAddress (runCalls [])
        "0xa84c57e9966df7df79bff42f35c68aae71796f64"
        "0xfe15afcb5b9831b8af5fd984678250e95de8e312"
        "aaaaaaaaaaaaaaaaaaaaaaaaaaaaaaaa").fst = Except.error e) := by
  refine ⟨(claim_C5_errors [] _ _ _).2.1 (by decide),
    (claim_C5_errors [] _ _ _).2.2.1 (by decide) (by decide),
    (claim_C5_errors [] _ _ _).2.2.2 (by decide) (by decide) (by decide),
    fun hex => ?_⟩
  have hd := (claim_C5_errors [] "0xa84c57e9966df7df79bff42f35c68aae71796f64"
    "0xfe15afcb5b9831b8af5fd984678250e95de8e312"
    "aaaaaaaaaaaaaaaaaaaaaaaaaaaaaaaa").1.mp hex
  revert hd
  decide

/-- C6: for every string and size, when the byte length of the string is at
most the size, `stringToHex` returns the `2n`-character lowercase hex encoding
of the string's bytes followed by trailing zero bytes; when the byte length
exceeds the size it returns the empty string. -/
theorem claim_C6_stringToHex (s : String) (n : Nat) :
    ((strBytes s).length ≤ n →
      stringToHex s n =
        asciiToString (hexEncodeAscii
          (strBytes s ++ List.replicate (n - (strBytes s).length) 0)) ∧
      (stringToHex s n).data.length = 2 * n) ∧
    (n < (strBytes s).length → stringToHex s n = "") := by
  constructor
  · intro h
    constructor
    · unfold stringToHex
      rw [stringToHexBytes_eq _ _ h]
    · unfold stringToHex
      rw [asciiToString_data, List.length_map, stringToHexBytes_length _ _ h]
  · intro h
    unfold stringToHex stringToHexBytes
    rw [if_pos (by omega)]
    rfl

/-- C6 witness: the empty salt encodes to 64 zero characters of total length
64, and a 33-byte string with size 32 yields the empty-string failure
signal. -/
theorem claim_C6_witness :
    (stringToHex "" 32 =
      asciiToString (hexEncodeAscii
        (strBytes "" ++ List.replicate (32 - (strBytes "").length) 0)) ∧
      (stringToHex "" 32).data.length = 2 * 32) ∧
    stringToHex "" 32 =
      "0000000000000000000000000000000000000000000000000000000000000000" ∧
    stringToHex "aaaaaaaaaaaaaaaaaaaaaaaaaaaaaaaaa" 32 = "" :=
  ⟨(claim_C6_stringToHex "" 32).1 (by decide), by decide,
    (claim_C6_stringToHex "aaaaaaaaaaaaaaaaaaaaaaaaaaaaaaaaa" 32).2 (by decide)⟩

/-- C7: for every valid triple, `PredictDeterministicAddress` yields the same
result from any two reachable cache states (so any calls made in between,
including ones that populate the validation cache, cannot change the output),
and that result is the deterministic function of the three inputs alone. -/
theorem claim_C7_determinism (impl depl salt : String) (p1 p2 : List String)
    (h1 : pureValid impl = true) (h2 : pureValid depl = true)
    (h3 : (strBytes salt).length ≤ 32) :
    (PredictDeterministicAddress (runCalls p1) impl depl salt).fst =
      (PredictDeterministicAddress (runCalls p2) impl depl salt).fst ∧
    (PredictDeterministicAddress (runCalls p1) impl depl salt).fst =
      Except.ok (asciiToString (predictOkAscii impl depl salt)) := by
  have hp1 := predict_fst_of_consistent (runCalls p1) impl depl salt (runCalls_consistent p1)
  have hp2 := predict_fst_of_consistent (runCalls p2) impl depl salt (runCalls_consistent p2)
  rw [hp1, hp2]
  simp [h1, h2, Nat.not_lt.mpr h3]

/-- C7 witness: the theorem instantiated at the benchmark inputs, comparing
the empty cache with the cache populated by a prior validation call. -/
theorem claim_C7_witness :
    ((PredictDeterministicAddress (runCalls []) "0xa84c57e9966df7df79bff42f35c68aae71796f64"
        "0xfe15afcb5b9831b8af5fd984678250e95de8e312" "test-salt-test").fst =
      (PredictDeterministicAddress
        (runCalls ["0xa84c57e9966df7df79bff42f35c68aae71796f64"])
        "0xa84c57e9966df7df79bff42f35c68aae71796f64"
        "0xfe15afcb5b9831b8af5fd984678250e95de8e312" "test-salt-test").fst) ∧
    (PredictDeterministicAddress (runCalls []) "0xa84c57e9966df7df79bff42f35c68aae71796f64"
        "0xfe15afcb5b9831b8af5fd984678250e95de8e312" "test-salt-test").fst =
      Except.ok (asciiToString (predictOkAscii "0xa84c57e9966df7df79bff42f35c68aae71796f64"
        "0xfe15afcb5b9831b8af5fd984678250e95de8e312" "test-salt-test")) :=
  claim_C7_determinism "0xa84c57e9966df7df79bff42f35c68aae71796f64"
    "0xfe15afcb5b9831b8af5fd984678250e95de8e312" "test-salt-test"
    [] ["0xa84c57e9966df7df79bff42f35c68aae71796f64"] (by decide) (by decide) (by decide)

/-- C8 counterexample: the digest of the empty byte sequence does not begin
with the 27-byte prefix `c5d2460186f7233c927e7db2dcc703c0e500b653ca82273b7bff37`
written in the spec; the spec's prefix is garbled in its last bytes. -/
theorem claim_C8_counterexample :
    ¬((keccak256 []).take 27 =
      [0xc5, 0xd2, 0x46, 0x01, 0x86, 0xf7, 0x23, 0x3c, 0x92, 0x7e, 0x7d, 0xb2, 0xdc,
       0xc7, 0x03, 0xc0, 0xe5, 0x00, 0xb6, 0x53, 0xca, 0x82, 0x27, 0x3b, 0x7b, 0xff,
       0x37]) := by
  decide

/-- C8 amended: the Keccak-256 hasher applied to the empty byte sequence
yields exactly the standard empty-input Keccak-256 digest
`c5d2460186f7233c927e7db2dcc703c0e500b653ca82273b7bfad8045d85a470`
(legacy 0x01 padding, not the SHA-3 0x06 domain separator). -/
theorem claim_C8_amended :
    keccak256 [] =
      [0xc5, 0xd2, 0x46, 0x01, 0x86, 0xf7, 0x23, 0x3c, 0x92, 0x7e, 0x7d, 0xb2, 0xdc,
       0xc7, 0x03, 0xc0, 0xe5, 0x00, 0xb6, 0x53, 0xca, 0x82, 0x27, 0x3b, 0x7b, 0xfa,
       0xd8, 0x04, 0x5d, 0x85, 0xa4, 0x70] := by
  decide

/-- C9 counterexample: on the all-zero 25-byte payload the encoder emits 26
leading `'1'` characters (one extra digit for the zero value), not the 25
demanded by the claim, and decoding does not reproduce the payload. -/
theorem claim_C9_counterexample :
    ¬(countLeadingOnes (base58_encode (List.replicate 25 0)) =
        countLeadingZeroBytes (List.replicate 25 0) ∧
      base58_decode (base58_encode (List.replicate 25 0)) = List.replicate 25 0) := by
  decide

/-- C9 amended: for every 25-byte payload containing at least one nonzero
byte, the number of leading `'1'` characters of `base58_encode` equals the
number of leading zero bytes of the payload, and decoding the output
(leading ones to zero bytes, remaining digits as a base-58 big integer)
reproduces the payload exactly. -/
theorem claim_C9_amended (payload : List Nat) (hlen : payload.length = 25)
    (hb : ∀ b ∈ payload, b < 256) (hnz : ∃ b ∈ payload, b ≠ 0) :
    countLeadingOnes (base58_encode payload) = countLeadingZeroBytes payload ∧
    base58_decode (base58_encode payload) = payload := by
  apply base58_encode_decomp payload hb hnz
  calc baseVal payload < 256 ^ payload.length := baseVal_lt payload hb
    _ = 256 ^ 25 := by rw [hlen]
    _ < 58 ^ 208 := by decide
    _ = 58 ^ (8 * payload.length + 8) := by rw [hlen]

/-- C9 witness: the amended theorem instantiated at the 25-byte payload of 24
zero bytes followed by the byte 7. -/
theorem claim_C9_witness :
    countLeadingOnes (base58_encode (List.replicate 24 0 ++ [7])) =
      countLeadingZeroBytes (List.replicate 24 0 ++ [7]) ∧
    base58_decode (base58_encode (List.replicate 24 0 ++ [7])) =
      List.replicate 24 0 ++ [7] :=
  claim_C9_amended (List.replicate 24 0 ++ [7]) (by decide) (by decide) (by decide)

/-- C10: the validation cache is transparent: after any finite sequence of
prior `isValidAddress` calls, a call returns the same boolean as on a fresh
empty cache; every cached value equals the recomputed validity verdict of its
key, and only strings passing the length-and-prefix pre-check are ever
inserted. -/
theorem claim_C10_cache_transparent (prior : List String) (s : String) :
    (isValidAddress (runCalls prior) s).fst = (isValidAddress [] s).fst ∧
    (∀ k v, (k, v) ∈ runCalls prior →
      v = (isValidAddress [] k).fst ∧ addrPrecheck (strBytes k) = true) := by
  refine ⟨?_, ?_⟩
  · rw [isValid_fst_of_consistent _ _ (runCalls_consistent prior)]
    rfl
  · intro k v hkv
    have h := runCalls_consistent prior (k, v) hkv
    exact ⟨h.2, h.1⟩

/-- C10 witness: the theorem instantiated at a prior call list containing the
benchmark implementation address, whose cached verdict `true` matches the
recomputed validity. -/
theorem claim_C10_witness :
    ((isValidAddress (runCalls ["0xa84c57e9966df7df79bff42f35c68aae71796f64"])
        "0xa84c57e9966df7df79bff42f35c68aae71796f64").fst =
      (isValidAddress [] "0xa84c57e9966df7df79bff42f35c68aae71796f64").fst) ∧
    (true = (isValidAddress [] "0xa84c57e9966df7df79bff42f35c68aae71796f64").fst ∧
      addrPrecheck (strBytes "0xa84c57e9966df7df79bff42f35c68aae71796f64") = true) :=
  ⟨(claim_C10_cache_transparent ["0xa84c57e9966df7df79bff42f35c68aae71796f64"]
      "0xa84c57e9966df7df79bff42f35c68aae71796f64").1,
    (claim_C10_cache_transparent ["0xa84c57e9966df7df79bff42f35c68aae71796f64"]
      "0xa84c57e9966df7df79bff42f35c68aae71796f64").2
      "0xa84c57e9966df7df79bff42f35c68aae71796f64" true (by decide)⟩
